import Mathlib

/-!
Verification of the scheduler core of `src/agents/scheduler`.

The functions embedded here are `calculate_free_slots` (tools.py) and
`schedule_tasks`, `_parse_preferred_time`, `_update_slots` (nodes.py),
together with the state records from state.py that they touch.

Timestamps are modelled as `Int`, counting minutes on the timeline of
"today": every timestamp the source constructs is a whole minute
(`now.replace(hour=h, minute=m, second=0, microsecond=0)` becomes
`60 * h + m`), and `datetime.now(TIMEZONE)` is passed explicitly as the
parameter `now`.  A duration `timedelta(minutes=d)` is the integer `d`.
-/

/-- state.py `CalendarEvent` (the fields the allocator reads; `description`
and `event_id` are carried only through I/O glue and are omitted). -/
structure CalendarEvent where
  summary : String
  start_time : Int
  end_time : Int
  deriving DecidableEq, Repr

/-- state.py `TaskItem` (the `is_scheduled` flag is never read by the
allocator and is omitted). -/
structure TaskItem where
  title : String
  estimated_duration_minutes : Int
  preferred_time : Option String
  deriving DecidableEq, Repr

/-- One insertion step of an insertion sort by `start_time`; together with
`sortByStart` this models tools.py line 202,
`sorted(events, key=lambda e: e.start_time)`.  (Tie order between events
with equal `start_time` does not affect any property proved here.) -/
def insertByStart (e : CalendarEvent) : List CalendarEvent → List CalendarEvent
  | [] => [e]
  | f :: rest =>
    if e.start_time ≤ f.start_time then e :: f :: rest
    else f :: insertByStart e rest

/-- tools.py line 202: sort the events by start time. -/
def sortByStart : List CalendarEvent → List CalendarEvent
  | [] => []
  | e :: rest => insertByStart e (sortByStart rest)

/-- The sweep loop of `calculate_free_slots` (tools.py lines 204-227).
`cur` is `current_time`; an event is skipped when it lies outside the
(already clamped) working window `[today_start, today_end]`; after the loop
the tail interval `[cur, today_end)` is emitted when non-empty. -/
def sweepLoop (today_start today_end : Int) : List CalendarEvent → Int → List (Int × Int)
  | [], cur => if cur < today_end then [(cur, today_end)] else []
  | e :: rest, cur =>
    if e.end_time ≤ today_start ∨ e.start_time ≥ today_end then
      sweepLoop today_start today_end rest cur
    else
      (if e.start_time > cur then [(cur, e.start_time)] else []) ++
        sweepLoop today_start today_end rest
          (if e.end_time > cur then e.end_time else cur)

/-- tools.py lines 174-227, `calculate_free_slots(events, work_start_hour,
work_end_hour)`.  `now` is the value of `datetime.now(TIMEZONE)`. -/
def calculate_free_slots (events : List CalendarEvent)
    (work_start_hour work_end_hour : Int) (now : Int) : List (Int × Int) :=
  let today_start := 60 * work_start_hour
  let today_end := 60 * work_end_hour
  let today_start := if now > today_start then now else today_start
  if now ≥ today_end then []
  else sweepLoop today_start today_end (sortByStart events) today_start

/-- Every slot has strictly positive length. -/
def slotsPos (l : List (Int × Int)) : Prop := ∀ p ∈ l, p.1 < p.2

/-- The slots are pairwise disjoint and sorted ascending: each slot ends no
later than the next one starts. -/
def slotsSortedDisjoint (l : List (Int × Int)) : Prop :=
  l.Pairwise fun p q => p.2 ≤ q.1

/-- The free-slot list invariant: sorted, disjoint, positive length. -/
def SlotsOk (l : List (Int × Int)) : Prop := slotsSortedDisjoint l ∧ slotsPos l

/-- The instant `t` is covered by some slot of `l`. -/
def inSlots (l : List (Int × Int)) (t : Int) : Prop :=
  ∃ p ∈ l, p.1 ≤ t ∧ t < p.2

/-- Total length of a slot list, in minutes. -/
def totalLen (l : List (Int × Int)) : Int :=
  (l.map fun p => p.2 - p.1).sum

theorem mem_insertByStart (e f : CalendarEvent) (l : List CalendarEvent) :
    f ∈ insertByStart e l ↔ f = e ∨ f ∈ l := by
  induction l with
  | nil => simp [insertByStart]
  | cons g rest ih =>
    by_cases h : e.start_time ≤ g.start_time
    · simp [insertByStart, h]
    · simp [insertByStart, h, ih]
      tauto

theorem pairwise_insertByStart (e : CalendarEvent) (l : List CalendarEvent)
    (h : l.Pairwise fun a b => a.start_time ≤ b.start_time) :
    (insertByStart e l).Pairwise fun a b => a.start_time ≤ b.start_time := by
  induction l with
  | nil => simp [insertByStart]
  | cons g rest ih =>
    rw [List.pairwise_cons] at h
    by_cases hle : e.start_time ≤ g.start_time
    · rw [insertByStart, if_pos hle, List.pairwise_cons]
      constructor
      · intro b hb
        rcases List.mem_cons.mp hb with hb | hb
        · exact hb ▸ hle
        · exact le_trans hle (h.1 b hb)
      · exact List.pairwise_cons.mpr h
    · rw [insertByStart, if_neg hle, List.pairwise_cons]
      constructor
      · intro b hb
        rcases (mem_insertByStart e b rest).mp hb with hb | hb
        · exact hb ▸ le_of_lt (lt_of_not_le hle)
        · exact h.1 b hb
      · exact ih h.2

theorem mem_sortByStart (f : CalendarEvent) (l : List CalendarEvent) :
    f ∈ sortByStart l ↔ f ∈ l := by
  induction l with
  | nil => simp [sortByStart]
  | cons e rest ih =>
    simp [sortByStart, mem_insertByStart, ih]

theorem pairwise_sortByStart (l : List CalendarEvent) :
    (sortByStart l).Pairwise fun a b => a.start_time ≤ b.start_time := by
  induction l with
  | nil => simp [sortByStart]
  | cons e rest ih => exact pairwise_insertByStart e _ ih

theorem inSlots_nil (t : Int) : inSlots [] t ↔ False := by
  simp [inSlots]

theorem inSlots_cons (p : Int × Int) (l : List (Int × Int)) (t : Int) :
    inSlots (p :: l) t ↔ (p.1 ≤ t ∧ t < p.2) ∨ inSlots l t := by
  simp [inSlots]

/-- The sweep keeps the free-slot invariant: the emitted list is sorted,
disjoint, positive-length, and every emitted slot starts no earlier than the
cursor. -/
theorem sweepLoop_ok (ts te : Int) (l : List CalendarEvent) :
    (∀ e ∈ l, e.start_time < e.end_time) →
    ∀ cur : Int, SlotsOk (sweepLoop ts te l cur) ∧
      ∀ p ∈ sweepLoop ts te l cur, cur ≤ p.1 := by
  induction l with
  | nil =>
    intro _ cur
    by_cases h : cur < te
    · simp [sweepLoop, h, SlotsOk, slotsSortedDisjoint, slotsPos]
    · simp [sweepLoop, h, SlotsOk, slotsSortedDisjoint, slotsPos]
  | cons e rest ih =>
    intro hv cur
    have hv' : ∀ f ∈ rest, f.start_time < f.end_time := fun f hf => hv f (by simp [hf])
    have hve : e.start_time < e.end_time := hv e (by simp)
    by_cases hskip : e.end_time ≤ ts ∨ e.start_time ≥ te
    · have heq : sweepLoop ts te (e :: rest) cur = sweepLoop ts te rest cur := by
        simp only [sweepLoop, if_pos hskip]
      rw [heq]
      exact ih hv' cur
    · have heq : sweepLoop ts te (e :: rest) cur =
          (if e.start_time > cur then [(cur, e.start_time)] else []) ++
            sweepLoop ts te rest (if e.end_time > cur then e.end_time else cur) := by
        simp only [sweepLoop, if_neg hskip]
      rw [heq]
      generalize hcur2 : (if e.end_time > cur then e.end_time else cur) = cur2
      have hc1 : cur ≤ cur2 := by rw [← hcur2]; split <;> omega
      have hc2 : e.end_time ≤ cur2 := by rw [← hcur2]; split <;> omega
      obtain ⟨⟨hpair, hpos⟩, hbound⟩ := ih hv' cur2
      by_cases hgt : e.start_time > cur
      · rw [if_pos hgt, List.singleton_append]
        refine ⟨⟨?_, ?_⟩, ?_⟩
        · refine List.pairwise_cons.mpr ⟨?_, hpair⟩
          intro q hq
          have h1 := hbound q hq
          show e.start_time ≤ q.1
          omega
        · intro p hp
          rcases List.mem_cons.mp hp with hp | hp
          · subst hp; exact hgt
          · exact hpos p hp
        · intro p hp
          rcases List.mem_cons.mp hp with hp | hp
          · subst hp; exact le_refl _
          · exact le_trans hc1 (hbound p hp)
      · rw [if_neg hgt, List.nil_append]
        refine ⟨⟨hpair, hpos⟩, ?_⟩
        intro p hp
        exact le_trans hc1 (hbound p hp)

/-- The sweep covers exactly the part of `[cur, te)` not covered by any
non-skipped event of the (start-sorted) event list. -/
theorem sweepLoop_mem (ts te : Int) (l : List CalendarEvent) :
    (l.Pairwise fun a b => a.start_time ≤ b.start_time) →
    ∀ cur t : Int,
      inSlots (sweepLoop ts te l cur) t ↔
        (cur ≤ t ∧ t < te ∧ ∀ e ∈ l, ¬(e.end_time ≤ ts ∨ e.start_time ≥ te) →
          ¬(e.start_time ≤ t ∧ t < e.end_time)) := by
  induction l with
  | nil =>
    intro _ cur t
    by_cases h : cur < te
    · simp [sweepLoop, h, inSlots]
    · simp [sweepLoop, h, inSlots]
      omega
  | cons e rest ih =>
    intro hs cur t
    rw [List.pairwise_cons] at hs
    obtain ⟨hhead, hrest⟩ := hs
    by_cases hskip : e.end_time ≤ ts ∨ e.start_time ≥ te
    · have heq : sweepLoop ts te (e :: rest) cur = sweepLoop ts te rest cur := by
        simp only [sweepLoop, if_pos hskip]
      rw [heq, ih hrest cur t]
      constructor
      · rintro ⟨h1, h2, h3⟩
        refine ⟨h1, h2, ?_⟩
        intro f hf hnf
        rcases List.mem_cons.mp hf with hf | hf
        · subst hf; exact absurd hskip hnf
        · exact h3 f hf hnf
      · rintro ⟨h1, h2, h3⟩
        exact ⟨h1, h2, fun f hf => h3 f (List.mem_cons_of_mem e hf)⟩
    · have heq : sweepLoop ts te (e :: rest) cur =
          (if e.start_time > cur then [(cur, e.start_time)] else []) ++
            sweepLoop ts te rest (if e.end_time > cur then e.end_time else cur) := by
        simp only [sweepLoop, if_neg hskip]
      rw [heq]
      generalize hcur2 : (if e.end_time > cur then e.end_time else cur) = cur2
      have hc1 : cur ≤ cur2 := by rw [← hcur2]; split <;> omega
      have hc2 : e.end_time ≤ cur2 := by rw [← hcur2]; split <;> omega
      have hc4 : cur2 = cur ∨ cur2 = e.end_time := by
        rw [← hcur2]; split
        · right; rfl
        · left; rfl
      have hnsk := hskip
      push_neg at hnsk
      have ihr := ih hrest cur2 t
      by_cases hgt : e.start_time > cur
      · rw [if_pos hgt, List.singleton_append, inSlots_cons, ihr]
        constructor
        · rintro (⟨h1, h2⟩ | ⟨h1, h2, h3⟩)
          · refine ⟨h1, by omega, ?_⟩
            intro f hf hnf
            rcases List.mem_cons.mp hf with hf | hf
            · subst hf
              intro hco
              omega
            · have hsf := hhead f hf
              intro hco
              omega
          · refine ⟨by omega, h2, ?_⟩
            intro f hf hnf
            rcases List.mem_cons.mp hf with hf | hf
            · subst hf
              intro hco
              omega
            · exact h3 f hf hnf
        · rintro ⟨h1, h2, h3⟩
          by_cases hts : t < e.start_time
          · exact Or.inl ⟨h1, hts⟩
          · right
            have hne := h3 e (by simp) hskip
            refine ⟨by omega, h2, fun f hf => h3 f (by simp [hf])⟩
      · rw [if_neg hgt, List.nil_append, ihr]
        constructor
        · rintro ⟨h1, h2, h3⟩
          refine ⟨by omega, h2, ?_⟩
          intro f hf hnf
          rcases List.mem_cons.mp hf with hf | hf
          · subst hf
            intro hco
            omega
          · exact h3 f hf hnf
        · rintro ⟨h1, h2, h3⟩
          have hne := h3 e (by simp) hskip
          refine ⟨by omega, h2, fun f hf => h3 f (by simp [hf])⟩

/-- C1: for every busy-event list (each event a genuine interval, per the
`TimeInterval` invariant), every working window and every current time, the
Calculator's output is sorted ascending, pairwise disjoint, has only
positive-length slots, and covers exactly the clamped working window
`[max(60*work_start_hour, now), 60*work_end_hour)` minus the union of the
window-overlapping busy intervals; in particular it is empty when `now` is
at or past the window end. -/
theorem calculate_free_slots_correct (events : List CalendarEvent)
    (work_start_hour work_end_hour now : Int)
    (hv : ∀ e ∈ events, e.start_time < e.end_time) :
    SlotsOk (calculate_free_slots events work_start_hour work_end_hour now) ∧
    (∀ t : Int,
      inSlots (calculate_free_slots events work_start_hour work_end_hour now) t ↔
        ((if now > 60 * work_start_hour then now else 60 * work_start_hour) ≤ t ∧
         t < 60 * work_end_hour ∧
         ∀ e ∈ events,
           ((if now > 60 * work_start_hour then now else 60 * work_start_hour) < e.end_time ∧
             e.start_time < 60 * work_end_hour) →
           ¬(e.start_time ≤ t ∧ t < e.end_time))) ∧
    (now ≥ 60 * work_end_hour →
      calculate_free_slots events work_start_hour work_end_hour now = []) := by
  have heq0 : calculate_free_slots events work_start_hour work_end_hour now =
      (if now ≥ 60 * work_end_hour then []
       else sweepLoop (if now > 60 * work_start_hour then now else 60 * work_start_hour)
         (60 * work_end_hour) (sortByStart events)
         (if now > 60 * work_start_hour then now else 60 * work_start_hour)) := rfl
  by_cases hre : now ≥ 60 * work_end_hour
  · rw [heq0, if_pos hre]
    refine ⟨⟨List.Pairwise.nil, fun p hp => absurd hp (List.not_mem_nil p)⟩, ?_, fun _ => rfl⟩
    intro t
    rw [inSlots_nil]
    constructor
    · intro h
      exact h.elim
    · rintro ⟨h1, h2, _⟩
      split at h1 <;> omega
  · rw [heq0, if_neg hre]
    have hv' : ∀ e ∈ sortByStart events, e.start_time < e.end_time :=
      fun e he => hv e ((mem_sortByStart e events).mp he)
    obtain ⟨hok, _⟩ := sweepLoop_ok
      (if now > 60 * work_start_hour then now else 60 * work_start_hour)
      (60 * work_end_hour) (sortByStart events) hv'
      (if now > 60 * work_start_hour then now else 60 * work_start_hour)
    refine ⟨hok, ?_, fun h => absurd h hre⟩
    intro t
    rw [sweepLoop_mem _ _ _ (pairwise_sortByStart events) _ t]
    constructor
    · rintro ⟨h1, h2, h3⟩
      refine ⟨h1, h2, ?_⟩
      intro e he hov
      refine h3 e ((mem_sortByStart e events).mpr he) ?_
      push_neg
      exact ⟨hov.1, hov.2⟩
    · rintro ⟨h1, h2, h3⟩
      refine ⟨h1, h2, ?_⟩
      intro e he hnsk
      push_neg at hnsk
      exact h3 e ((mem_sortByStart e events).mp he) hnsk

/-- nodes.py lines 299-323, `_update_slots(slots, index, used_start,
used_end)`: pop the slot at `index`; if `used_start > slot_start` reinsert
the leftover `[slot_start, used_start)` at `index` and advance the insertion
index; if `used_end < slot_end` insert the leftover `[used_end, slot_end)`
right after.  The Python function mutates the list in place; this is the
list it leaves behind.  (For an out-of-range index the Python `slots[index]`
would raise `IndexError`; every call site passes an index produced by
`enumerate`, so that case is unreachable and modelled as the identity.) -/
def update_slots (slots : List (Int × Int)) (index : Nat)
    (used_start used_end : Int) : List (Int × Int) :=
  match slots[index]? with
  | none => slots
  | some (slot_start, slot_end) =>
    slots.take index
      ++ (if used_start > slot_start then [(slot_start, used_start)] else [])
      ++ (if used_end < slot_end then [(used_end, slot_end)] else [])
      ++ slots.drop (index + 1)

theorem update_slots_cons (p : Int × Int) (l : List (Int × Int)) (i : Nat)
    (us ue : Int) :
    update_slots (p :: l) (i + 1) us ue = p :: update_slots l i us ue := by
  cases h : l[i]? with
  | none => simp [update_slots, h]
  | some q =>
    obtain ⟨a, b⟩ := q
    simp [update_slots, h]

theorem update_slots_zero (a b : Int) (l : List (Int × Int)) (us ue : Int) :
    update_slots ((a, b) :: l) 0 us ue =
      (if us > a then [(a, us)] else []) ++ (if ue < b then [(ue, b)] else []) ++ l := by
  simp [update_slots]

theorem slotsOk_nil : SlotsOk [] :=
  ⟨List.Pairwise.nil, fun p hp => absurd hp (List.not_mem_nil p)⟩

theorem slotsOk_cons (p : Int × Int) (l : List (Int × Int)) :
    SlotsOk (p :: l) ↔ (∀ q ∈ l, p.2 ≤ q.1) ∧ p.1 < p.2 ∧ SlotsOk l := by
  simp only [SlotsOk, slotsSortedDisjoint, slotsPos, List.pairwise_cons, List.mem_cons]
  constructor
  · rintro ⟨⟨hh, hl⟩, hpos⟩
    exact ⟨hh, hpos p (Or.inl rfl), ⟨hl, fun q hq => hpos q (Or.inr hq)⟩⟩
  · rintro ⟨hh, hp, ⟨hl, hpos⟩⟩
    refine ⟨⟨hh, hl⟩, ?_⟩
    rintro q (rfl | hq)
    · exact hp
    · exact hpos q hq

theorem totalLen_nil : totalLen [] = 0 := rfl

theorem totalLen_cons (p : Int × Int) (l : List (Int × Int)) :
    totalLen (p :: l) = (p.2 - p.1) + totalLen l := by
  simp [totalLen]

/-- Every slot the update leaves behind is contained in some original slot. -/
theorem mem_update_slots (slots : List (Int × Int)) (index : Nat)
    (us ue ss se : Int) (hget : slots[index]? = some (ss, se))
    (h1 : ss ≤ us) (h2 : ue ≤ se) (h3 : us ≤ ue) :
    ∀ q ∈ update_slots slots index us ue, ∃ q0 ∈ slots, q0.1 ≤ q.1 ∧ q.2 ≤ q0.2 := by
  induction slots generalizing index with
  | nil => simp at hget
  | cons p l ih =>
    cases index with
    | zero =>
      simp only [List.getElem?_cons_zero, Option.some.injEq] at hget
      subst hget
      rw [update_slots_zero]
      intro q hq
      by_cases hA : us > ss <;> by_cases hB : ue < se <;>
        simp only [hA, hB, if_pos, if_neg, if_true, if_false, List.nil_append,
          List.singleton_append, List.cons_append, List.mem_cons, List.mem_append,
          List.mem_singleton, List.not_mem_nil, false_or, or_false] at hq
      · rcases hq with rfl | rfl | hq
        · exact ⟨(ss, se), by simp, by simp, by simpa using le_trans h3 h2⟩
        · exact ⟨(ss, se), by simp, by simpa using le_trans h1 h3, by simp⟩
        · exact ⟨q, by simp [hq], le_refl _, le_refl _⟩
      · rcases hq with rfl | hq
        · exact ⟨(ss, se), by simp, by simp, by simpa using le_trans h3 h2⟩
        · exact ⟨q, by simp [hq], le_refl _, le_refl _⟩
      · rcases hq with rfl | hq
        · exact ⟨(ss, se), by simp, by simpa using le_trans h1 h3, by simp⟩
        · exact ⟨q, by simp [hq], le_refl _, le_refl _⟩
      · exact ⟨q, by simp [hq], le_refl _, le_refl _⟩
    | succ i =>
      rw [List.getElem?_cons_succ] at hget
      rw [update_slots_cons]
      intro q hq
      rcases List.mem_cons.mp hq with hq | hq
      · subst hq
        exact ⟨q, by simp, le_refl _, le_refl _⟩
      · obtain ⟨q0, h0, ha, hb⟩ := ih i hget q hq
        exact ⟨q0, by simp [h0], ha, hb⟩

/-- Every slot the update leaves behind is disjoint from the placement
`[us, ue)` that was carved out. -/
theorem update_slots_disjoint (slots : List (Int × Int)) (index : Nat)
    (us ue ss se : Int) (hok : SlotsOk slots) (hget : slots[index]? = some (ss, se))
    (h1 : ss ≤ us) (h2 : ue ≤ se) :
    ∀ q ∈ update_slots slots index us ue, q.2 ≤ us ∨ ue ≤ q.1 := by
  induction slots generalizing index with
  | nil => simp at hget
  | cons p l ih =>
    rw [slotsOk_cons] at hok
    obtain ⟨hh, hpp, hokl⟩ := hok
    cases index with
    | zero =>
      simp only [List.getElem?_cons_zero, Option.some.injEq] at hget
      subst hget
      rw [update_slots_zero]
      intro q hq
      by_cases hA : us > ss <;> by_cases hB : ue < se <;>
        simp only [hA, hB, if_pos, if_neg, if_true, if_false, List.nil_append,
          List.singleton_append, List.cons_append, List.mem_cons, List.mem_append,
          List.mem_singleton, List.not_mem_nil, false_or, or_false] at hq
      · rcases hq with rfl | rfl | hq
        · left; exact le_refl _
        · right; exact le_refl _
        · right
          have := hh q hq
          simp only at this
          omega
      · rcases hq with rfl | hq
        · left; exact le_refl _
        · right
          have := hh q hq
          simp only at this
          omega
      · rcases hq with rfl | hq
        · right; exact le_refl _
        · right
          have := hh q hq
          simp only at this
          omega
      · right
        have := hh q hq
        simp only at this
        omega
    | succ i =>
      rw [List.getElem?_cons_succ] at hget
      rw [update_slots_cons]
      intro q hq
      rcases List.mem_cons.mp hq with hq | hq
      · subst hq
        left
        have hmem : (ss, se) ∈ l := List.getElem?_mem hget
        have := hh (ss, se) hmem
        simp only at this
        omega
      · exact ih i hokl hget q hq

/-- C2: updating a sorted, disjoint, positive-length free-slot list for a
successful placement `[us, ue)` of positive length lying inside the slot at
`index` keeps the list sorted, disjoint and positive-length, and decreases
the total free length by exactly the placement's length `ue - us` (the
task's duration). -/
theorem update_slots_invariant (slots : List (Int × Int)) (index : Nat)
    (ss se us ue : Int) (hok : SlotsOk slots)
    (hget : slots[index]? = some (ss, se))
    (h1 : ss ≤ us) (h2 : ue ≤ se) (h3 : us < ue) :
    SlotsOk (update_slots slots index us ue) ∧
      totalLen (update_slots slots index us ue) = totalLen slots - (ue - us) := by
  induction slots generalizing index with
  | nil => simp at hget
  | cons p l ih =>
    rw [slotsOk_cons] at hok
    obtain ⟨hh, hpp, hokl⟩ := hok
    cases index with
    | zero =>
      simp only [List.getElem?_cons_zero, Option.some.injEq] at hget
      subst hget
      rw [update_slots_zero]
      by_cases hA : us > ss <;> by_cases hB : ue < se <;>
        simp only [hA, hB, if_pos, if_neg, if_true, if_false, List.nil_append,
          List.singleton_append, List.cons_append]
      · constructor
        · rw [slotsOk_cons, slotsOk_cons]
          refine ⟨?_, by simpa using hA, ?_, by simpa using hB, hokl⟩
          · intro q hq
            rcases List.mem_cons.mp hq with rfl | hq
            · simp
              omega
            · have := hh q hq
              simp only at this ⊢
              omega
          · intro q hq
            have := hh q hq
            simp only at this ⊢
            omega
        · rw [totalLen_cons, totalLen_cons, totalLen_cons]
          simp only
          ring
      · constructor
        · rw [slotsOk_cons]
          refine ⟨?_, by simpa using hA, hokl⟩
          intro q hq
          have := hh q hq
          simp only at this ⊢
          omega
        · rw [totalLen_cons, totalLen_cons]
          simp only
          omega
      · constructor
        · rw [slotsOk_cons]
          refine ⟨?_, by simpa using hB, hokl⟩
          intro q hq
          have := hh q hq
          simp only at this ⊢
          omega
        · rw [totalLen_cons, totalLen_cons]
          simp only
          omega
      · refine ⟨hokl, ?_⟩
        rw [totalLen_cons]
        simp only
        omega
    | succ i =>
      rw [List.getElem?_cons_succ] at hget
      rw [update_slots_cons]
      obtain ⟨ihok, ihlen⟩ := ih i hokl hget
      constructor
      · rw [slotsOk_cons]
        refine ⟨?_, hpp, ihok⟩
        intro q hq
        obtain ⟨q0, hq0, hq01, hq02⟩ :=
          mem_update_slots l i us ue ss se hget h1 h2 (le_of_lt h3) q hq
        exact le_trans (hh q0 hq0) hq01
      · rw [totalLen_cons, totalLen_cons, ihlen]
        ring

/-- `startsWith needle hay`: `needle` is a prefix of `hay`. -/
def startsWith : List Char → List Char → Bool
  | [], _ => true
  | _ :: _, [] => false
  | c :: cs, d :: ds => c == d && startsWith cs ds

/-- Python `needle in haystack` on strings: `needle` occurs as a contiguous
substring of `haystack`. -/
def containsSub (needle : List Char) : List Char → Bool
  | [] => needle.isEmpty
  | c :: rest => startsWith needle (c :: rest) || containsSub needle rest

/-- `re.findall(r"\d+", s)`: the maximal runs of digits of `s`, in order
(`\d` modelled as the ASCII digits `0`-`9`; the inputs of interest mix
ASCII digits with CJK text).  `acc` holds the digits of the current run,
reversed. -/
def digitRunsAux : List Char → List Char → List (List Char)
  | [], acc => if acc.isEmpty then [] else [acc.reverse]
  | c :: cs, acc =>
    if c.isDigit then digitRunsAux cs (c :: acc)
    else if acc.isEmpty then digitRunsAux cs []
    else acc.reverse :: digitRunsAux cs []

/-- Python `int(...)` on a run of decimal digits. -/
def natOfDigits (ds : List Char) : Nat :=
  ds.foldl (fun n c => 10 * n + (c.toNat - 48)) 0

/-- `[int(g) for g in re.findall(r"\d+", s)]`: the integer groups of a
text, in order. -/
def digit_groups (s : List Char) : List Nat :=
  (digitRunsAux s []).map natOfDigits

set_option linter.unusedVariables false in
/-- nodes.py lines 263-296, `_parse_preferred_time(time_str, base_date)`.
`base_date.replace(hour=hour, minute=minute, second=0, microsecond=0)`
keeps only the day of `base_date`, so on the minutes-of-today timeline it
is `60 * hour + minute`; the `try/except ValueError` around `replace` is
the range check `hour ≤ 23 ∧ minute ≤ 59` (hour and minute are naturals,
so they cannot be negative).  `time_str.upper()` is modelled as a
character-wise (ASCII) uppercasing of the text. -/
def parse_preferred_time (time_str : String) (base_date : Int) : Option Int :=
  let is_pm := containsSub "午後".toList time_str.toList ||
    containsSub "PM".toList (time_str.toList.map Char.toUpper)
  let is_am := containsSub "午前".toList time_str.toList ||
    containsSub "AM".toList (time_str.toList.map Char.toUpper)
  match digit_groups time_str.toList with
  | [] => none
  | n :: rest =>
    let hour : Nat := n
    let minute : Nat := match rest with | [] => 0 | m :: _ => m
    let hour : Nat :=
      if is_pm ∧ hour < 12 then hour + 12
      else if is_am ∧ hour = 12 then 0
      else hour
    if hour ≤ 23 ∧ minute ≤ 59 then some ((60 * hour + minute : Nat) : Int)
    else none

/-- nodes.py lines 214-217: the preferred start used for a task — `None`
unless `task.preferred_time` is present and truthy (the empty string is
falsy in Python) and parses to a valid time-of-day. -/
def resolve_preferred (task : TaskItem) (now : Int) : Option Int :=
  match task.preferred_time with
  | none => none
  | some s => if s = "" then none else parse_preferred_time s now

/-- The `for i, (slot_start, slot_end) in enumerate(available_slots)`
search: the first slot satisfying `pred`, with its index. -/
def findFirst (pred : Int × Int → Bool) : List (Int × Int) → Option (Nat × (Int × Int))
  | [] => none
  | p :: rest =>
    if pred p then some (0, p)
    else (findFirst pred rest).map fun r => (r.1 + 1, r.2)

/-- The slot choice of `schedule_tasks` for one task (nodes.py lines
211-242, without the slot update): the preferred-slot search — first slot
`s` with `s.start <= preferred_start < s.end` and
`s.end - preferred_start >= duration` — and, if no preferred start resolved
or that search failed, the fallback search — first slot with
`s.end - s.start >= duration`.  Returns the chosen index together with the
placement `(start_time, end_time)`. -/
def decide_placement (slots : List (Int × Int)) (task : TaskItem) (now : Int) :
    Option (Nat × Int × Int) :=
  let duration := task.estimated_duration_minutes
  let fromPreferred :=
    match resolve_preferred task now with
    | none => none
    | some pref =>
      (findFirst (fun p => decide (p.1 ≤ pref ∧ pref < p.2 ∧ p.2 - pref ≥ duration))
          slots).map fun (r : Nat × (Int × Int)) => (r.1, pref, pref + duration)
  match fromPreferred with
  | some x => some x
  | none =>
    (findFirst (fun p => decide (p.2 - p.1 ≥ duration)) slots).map
      fun (r : Nat × (Int × Int)) => (r.1, r.2.1, r.2.1 + duration)

/-- The outcome of the task loop of `schedule_tasks`: the events committed
to the calendar (`scheduled_events`), the final state of the local
`available_slots` list, and whether a commit failure aborted the loop
(`error_message` would be set). -/
structure SchedRes where
  scheduled : List CalendarEvent
  slots : List (Int × Int)
  error : Bool
  deriving DecidableEq, Repr

/-- The task loop of `schedule_tasks` (nodes.py lines 211-258).  `commit`
models `add_event_to_calendar`, the external calendar write: it receives
the number of events committed so far (`len(scheduled_events)`), the task
and the placement, and reports success, or failure (an exception).  A task
with no feasible slot is skipped without error; on a successful placement
the slot list is updated and the event committed; on commit failure the
loop stops — remaining tasks are not processed, events committed so far
are kept, and the error flag is set. -/
def scheduleLoop (commit : Nat → TaskItem → Int → Int → Bool) (now : Int) :
    List TaskItem → List (Int × Int) → Nat → SchedRes
  | [], slots, _ => ⟨[], slots, false⟩
  | task :: rest, slots, k =>
    match decide_placement slots task now with
    | none => scheduleLoop commit now rest slots k
    | some (i, st, en) =>
      let slots2 := update_slots slots i st en
      if commit k task st en then
        let r := scheduleLoop commit now rest slots2 (k + 1)
        ⟨⟨task.title, st, en⟩ :: r.scheduled, r.slots, r.error⟩
      else
        ⟨[], slots2, true⟩

/-- state.py `SchedulerState`, restricted to the fields that
`schedule_tasks` reads or writes. -/
structure SchedulerState where
  free_slots : List (Int × Int)
  extracted_tasks : List TaskItem
  scheduled_events : List CalendarEvent
  error_message : Option String
  deriving DecidableEq, Repr

/-- The dict returned by `schedule_tasks`: the keys it may contain.  There
is no `free_slots` key — the function never writes the residual slot list
back into the state. -/
structure ScheduleUpdate where
  scheduled_events : Option (List CalendarEvent)
  error_message : Option String
  deriving DecidableEq, Repr

/-- nodes.py lines 193-260, `schedule_tasks(state)`: early-out on a prior
truthy (non-`None`, non-empty) `error_message` or on no extracted tasks;
otherwise run the task loop on `available_slots = list(state.free_slots)`
— a copy — and return the dict of state updates (the commit-failure
message is abbreviated; only its presence matters). -/
def schedule_tasks (commit : Nat → TaskItem → Int → Int → Bool) (now : Int)
    (state : SchedulerState) : ScheduleUpdate :=
  if (match state.error_message with
      | some m => m != ""
      | none => false) || state.extracted_tasks.isEmpty then
    ⟨none, none⟩
  else
    let r := scheduleLoop commit now state.extracted_tasks state.free_slots 0
    if r.error then ⟨some r.scheduled, some "カレンダーへの登録に失敗しました"⟩
    else ⟨some r.scheduled, none⟩

/-- LangGraph's merge of a node's returned dict into the state: a key
present in the dict overwrites the field, an absent key leaves the field
unchanged (none of these fields has a reducer). -/
def apply_update (state : SchedulerState) (u : ScheduleUpdate) : SchedulerState :=
  { state with
    scheduled_events :=
      match u.scheduled_events with
      | some evs => evs
      | none => state.scheduled_events,
    error_message :=
      match u.error_message with
      | some m => some m
      | none => state.error_message }

theorem findFirst_some (pred : Int × Int → Bool) :
    ∀ (l : List (Int × Int)) (i : Nat) (p : Int × Int),
      findFirst pred l = some (i, p) → l[i]? = some p ∧ pred p = true := by
  intro l
  induction l with
  | nil =>
    intro i p h
    simp [findFirst] at h
  | cons q rest ih =>
    intro i p h
    simp only [findFirst] at h
    by_cases hq : pred q
    · rw [if_pos hq] at h
      simp only [Option.some.injEq, Prod.mk.injEq] at h
      obtain ⟨h1, h2⟩ := h
      subst h1
      subst h2
      exact ⟨by simp, hq⟩
    · rw [if_neg hq] at h
      cases hf : findFirst pred rest with
      | none =>
        rw [hf] at h
        simp at h
      | some r =>
        rw [hf] at h
        simp only [Option.map_some', Option.some.injEq, Prod.mk.injEq] at h
        obtain ⟨h1, h2⟩ := h
        subst h1
        subst h2
        obtain ⟨hg, hp⟩ := ih r.1 r.2 (by rw [hf])
        exact ⟨by simpa using hg, hp⟩

theorem findFirst_none (pred : Int × Int → Bool) :
    ∀ l : List (Int × Int), findFirst pred l = none ↔ ∀ p ∈ l, pred p = false := by
  intro l
  induction l with
  | nil => simp [findFirst]
  | cons q rest ih =>
    simp only [findFirst]
    by_cases hq : pred q
    · rw [if_pos hq]
      simp [hq]
    · rw [if_neg hq]
      cases hf : findFirst pred rest with
      | none =>
        simp only [Option.map_none', true_iff]
        intro p hp
        rcases List.mem_cons.mp hp with rfl | hp
        · exact Bool.eq_false_iff.mpr hq
        · exact (ih.mp hf) p hp
      | some r =>
        simp only [Option.map_some']
        constructor
        · intro h
          exact absurd h (by simp)
        · intro h
          have : findFirst pred rest = none := ih.mpr fun p hp => h p (by simp [hp])
          rw [this] at hf
          exact absurd hf (by simp)

theorem findFirst_of (pred : Int × Int → Bool) :
    ∀ (l : List (Int × Int)) (i : Nat) (p : Int × Int),
      l[i]? = some p → pred p = true →
      (∀ j : Nat, j < i → ∀ q : Int × Int, l[j]? = some q → pred q = false) →
      findFirst pred l = some (i, p) := by
  intro l
  induction l with
  | nil =>
    intro i p hget
    simp at hget
  | cons q rest ih =>
    intro i p hget hp hmin
    cases i with
    | zero =>
      simp only [List.getElem?_cons_zero, Option.some.injEq] at hget
      subst hget
      simp only [findFirst, if_pos hp]
    | succ j =>
      rw [List.getElem?_cons_succ] at hget
      have hq : pred q = false := hmin 0 (Nat.succ_pos j) q (by simp)
      simp only [findFirst, hq, Bool.false_eq_true, if_false, if_neg]
      rw [ih j p hget hp fun j' hj' q' hq' => hmin (j' + 1) (by omega) q' (by simpa using hq')]
      rfl

theorem findFirst_mem (pred : Int × Int → Bool) :
    ∀ (l : List (Int × Int)) (p : Int × Int), p ∈ l → pred p = true →
      ∃ i q, findFirst pred l = some (i, q) ∧ pred q = true := by
  intro l
  induction l with
  | nil =>
    intro p hp
    simp at hp
  | cons r rest ih =>
    intro p hp hpred
    by_cases hr : pred r
    · exact ⟨0, r, by simp only [findFirst, if_pos hr], hr⟩
    · have hp' : p ∈ rest := by
        rcases List.mem_cons.mp hp with rfl | hp'
        · exact absurd hpred (by simp [hr])
        · exact hp'
      obtain ⟨i, q, hf, hq⟩ := ih p hp' hpred
      exact ⟨i + 1, q, by simp only [findFirst, if_neg hr, hf, Option.map_some'], hq⟩

/-- Unfolding of `decide_placement` when no preferred start resolved: only
the fallback search runs. -/
theorem decide_placement_resolve_none (slots : List (Int × Int)) (task : TaskItem)
    (now : Int) (hr : resolve_preferred task now = none) :
    decide_placement slots task now =
      (findFirst (fun p => decide (p.2 - p.1 ≥ task.estimated_duration_minutes)) slots).map
        fun (r : Nat × (Int × Int)) =>
          (r.1, r.2.1, r.2.1 + task.estimated_duration_minutes) := by
  simp only [decide_placement, hr]

/-- Unfolding of `decide_placement` when a preferred start resolved: the
preferred-slot search runs first, the fallback search only on its failure. -/
theorem decide_placement_resolve_some (slots : List (Int × Int)) (task : TaskItem)
    (now : Int) (pref : Int) (hr : resolve_preferred task now = some pref) :
    decide_placement slots task now =
      match (findFirst (fun p => decide (p.1 ≤ pref ∧ pref < p.2 ∧
          p.2 - pref ≥ task.estimated_duration_minutes)) slots).map
        (fun (r : Nat × (Int × Int)) => (r.1, pref, pref + task.estimated_duration_minutes)) with
      | some x => some x
      | none =>
        (findFirst (fun p => decide (p.2 - p.1 ≥ task.estimated_duration_minutes)) slots).map
          fun (r : Nat × (Int × Int)) =>
            (r.1, r.2.1, r.2.1 + task.estimated_duration_minutes) := by
  simp only [decide_placement, hr]

/-- Any placement `decide_placement` returns lies inside the slot at the
returned index, and its length is the task's duration. -/
theorem decide_placement_spec (slots : List (Int × Int)) (task : TaskItem) (now : Int)
    (i : Nat) (st en : Int)
    (h : decide_placement slots task now = some (i, st, en)) :
    ∃ ss se, slots[i]? = some (ss, se) ∧ ss ≤ st ∧ en ≤ se ∧
      en = st + task.estimated_duration_minutes := by
  cases hr : resolve_preferred task now with
  | none =>
    rw [decide_placement_resolve_none slots task now hr] at h
    cases hf : findFirst
        (fun p => decide (p.2 - p.1 ≥ task.estimated_duration_minutes)) slots with
    | none =>
      rw [hf] at h
      simp at h
    | some r =>
      rw [hf] at h
      simp only [Option.map_some', Option.some.injEq, Prod.mk.injEq] at h
      obtain ⟨h1, h2, h3⟩ := h
      subst h1
      subst h2
      subst h3
      obtain ⟨hget, hp⟩ := findFirst_some _ slots r.1 r.2 (by rw [hf])
      rw [decide_eq_true_iff] at hp
      exact ⟨r.2.1, r.2.2, by simpa using hget, le_refl _, by omega, rfl⟩
  | some pref =>
    rw [decide_placement_resolve_some slots task now pref hr] at h
    cases hfp : findFirst
        (fun p => decide (p.1 ≤ pref ∧ pref < p.2 ∧
          p.2 - pref ≥ task.estimated_duration_minutes)) slots with
    | some r =>
      rw [hfp] at h
      simp only [Option.map_some', Option.some.injEq, Prod.mk.injEq] at h
      obtain ⟨h1, h2, h3⟩ := h
      subst h1
      subst h2
      subst h3
      obtain ⟨hget, hp⟩ := findFirst_some _ slots r.1 r.2 (by rw [hfp])
      rw [decide_eq_true_iff] at hp
      exact ⟨r.2.1, r.2.2, by simpa using hget, hp.1, by omega, rfl⟩
    | none =>
      rw [hfp] at h
      simp only [Option.map_none'] at h
      cases hf : findFirst
          (fun p => decide (p.2 - p.1 ≥ task.estimated_duration_minutes)) slots with
      | none =>
        rw [hf] at h
        simp at h
      | some r =>
        rw [hf] at h
        simp only [Option.map_some', Option.some.injEq, Prod.mk.injEq] at h
        obtain ⟨h1, h2, h3⟩ := h
        subst h1
        subst h2
        subst h3
        obtain ⟨hget, hp⟩ := findFirst_some _ slots r.1 r.2 (by rw [hf])
        rw [decide_eq_true_iff] at hp
        exact ⟨r.2.1, r.2.2, by simpa using hget, le_refl _, by omega, rfl⟩

theorem scheduleLoop_nil (commit : Nat → TaskItem → Int → Int → Bool) (now : Int)
    (slots : List (Int × Int)) (k : Nat) :
    scheduleLoop commit now [] slots k = ⟨[], slots, false⟩ := rfl

theorem scheduleLoop_cons_none (commit : Nat → TaskItem → Int → Int → Bool)
    (now : Int) (task : TaskItem) (rest : List TaskItem)
    (slots : List (Int × Int)) (k : Nat)
    (hdp : decide_placement slots task now = none) :
    scheduleLoop commit now (task :: rest) slots k =
      scheduleLoop commit now rest slots k := by
  simp only [scheduleLoop, hdp]

theorem scheduleLoop_cons_some_true (commit : Nat → TaskItem → Int → Int → Bool)
    (now : Int) (task : TaskItem) (rest : List TaskItem)
    (slots : List (Int × Int)) (k : Nat) (i : Nat) (st en : Int)
    (hdp : decide_placement slots task now = some (i, st, en))
    (hc : commit k task st en = true) :
    scheduleLoop commit now (task :: rest) slots k =
      ⟨⟨task.title, st, en⟩ ::
        (scheduleLoop commit now rest (update_slots slots i st en) (k + 1)).scheduled,
       (scheduleLoop commit now rest (update_slots slots i st en) (k + 1)).slots,
       (scheduleLoop commit now rest (update_slots slots i st en) (k + 1)).error⟩ := by
  simp only [scheduleLoop, hdp, hc, if_true]

theorem scheduleLoop_cons_some_false (commit : Nat → TaskItem → Int → Int → Bool)
    (now : Int) (task : TaskItem) (rest : List TaskItem)
    (slots : List (Int × Int)) (k : Nat) (i : Nat) (st en : Int)
    (hdp : decide_placement slots task now = some (i, st, en))
    (hc : commit k task st en = false) :
    scheduleLoop commit now (task :: rest) slots k =
      ⟨[], update_slots slots i st en, true⟩ := by
  simp [scheduleLoop, hdp, hc]

/-- C3: a task whose preferred start resolves to a valid timestamp, when
the current free-slot list has some slot containing that start with room
for the task's duration, is placed exactly on
`[preferred_start, preferred_start + duration)`. -/
theorem preferred_start_honored (slots : List (Int × Int)) (task : TaskItem)
    (now : Int) (pref : Int)
    (hp : resolve_preferred task now = some pref)
    (hfit : ∃ p ∈ slots, p.1 ≤ pref ∧ pref < p.2 ∧
      p.2 - pref ≥ task.estimated_duration_minutes) :
    ∃ i : Nat, decide_placement slots task now =
      some (i, pref, pref + task.estimated_duration_minutes) := by
  obtain ⟨p, hmem, hc1, hc2, hc3⟩ := hfit
  have hpred : decide (p.1 ≤ pref ∧ pref < p.2 ∧
      p.2 - pref ≥ task.estimated_duration_minutes) = true :=
    decide_eq_true ⟨hc1, hc2, hc3⟩
  obtain ⟨i, q, hff, hq⟩ := findFirst_mem
    (fun p => decide (p.1 ≤ pref ∧ pref < p.2 ∧
      p.2 - pref ≥ task.estimated_duration_minutes)) slots p hmem hpred
  refine ⟨i, ?_⟩
  rw [decide_placement_resolve_some slots task now pref hp, hff]
  rfl

/-- C4: a task with no resolved preferred start, or whose preferred start
fits no slot containing it, is placed at the start of the first slot with
room for its duration; when no slot has room the task is left unplaced and
the loop simply continues with the remaining tasks (no error is raised). -/
theorem fallback_placement (slots : List (Int × Int)) (task : TaskItem) (now : Int)
    (commit : Nat → TaskItem → Int → Int → Bool) (rest : List TaskItem) (k : Nat)
    (hnopref : resolve_preferred task now = none ∨
      ∃ pref, resolve_preferred task now = some pref ∧
        ∀ p ∈ slots, ¬(p.1 ≤ pref ∧ pref < p.2 ∧
          p.2 - pref ≥ task.estimated_duration_minutes)) :
    (∀ (i : Nat) (p : Int × Int), slots[i]? = some p →
      p.2 - p.1 ≥ task.estimated_duration_minutes →
      (∀ j : Nat, j < i → ∀ q : Int × Int, slots[j]? = some q →
        ¬(q.2 - q.1 ≥ task.estimated_duration_minutes)) →
      decide_placement slots task now =
        some (i, p.1, p.1 + task.estimated_duration_minutes)) ∧
    ((∀ p ∈ slots, ¬(p.2 - p.1 ≥ task.estimated_duration_minutes)) →
      decide_placement slots task now = none ∧
      scheduleLoop commit now (task :: rest) slots k =
        scheduleLoop commit now rest slots k) := by
  have hfb : decide_placement slots task now =
      (findFirst (fun p => decide (p.2 - p.1 ≥ task.estimated_duration_minutes)) slots).map
        fun (r : Nat × (Int × Int)) =>
          (r.1, r.2.1, r.2.1 + task.estimated_duration_minutes) := by
    rcases hnopref with hr | ⟨pref, hr, hnone⟩
    · exact decide_placement_resolve_none slots task now hr
    · rw [decide_placement_resolve_some slots task now pref hr]
      have hn : findFirst (fun p => decide (p.1 ≤ pref ∧ pref < p.2 ∧
          p.2 - pref ≥ task.estimated_duration_minutes)) slots = none :=
        (findFirst_none _ slots).mpr fun p hp => by simpa using hnone p hp
      rw [hn]
      rfl
  constructor
  · intro i p hget hfit hmin
    rw [hfb, findFirst_of _ slots i p hget (by simpa using hfit)
      (fun j hj q hq => by simpa using hmin j hj q hq)]
    rfl
  · intro hnofit
    have hnone : findFirst
        (fun p => decide (p.2 - p.1 ≥ task.estimated_duration_minutes)) slots = none :=
      (findFirst_none _ slots).mpr fun p hp => by simpa using hnofit p hp
    have hdp : decide_placement slots task now = none := by
      rw [hfb, hnone]
      rfl
    exact ⟨hdp, scheduleLoop_cons_none commit now task rest slots k hdp⟩

/-- If the first `d` commits succeed and the `d`-th (0-based, counting from
the loop's starting counter `m`) fails, the run's committed events are
exactly the first `d` placements of the unrestricted run, and the error
flag is set. -/
theorem scheduleLoop_commit_prefix (commit : Nat → TaskItem → Int → Int → Bool)
    (now : Int) :
    ∀ (tasks : List TaskItem) (slots : List (Int × Int)) (m d : Nat),
      (∀ j : Nat, j < d → ∀ t s e, commit (m + j) t s e = true) →
      (∀ t s e, commit (m + d) t s e = false) →
      d < (scheduleLoop (fun _ _ _ _ => true) now tasks slots m).scheduled.length →
      (scheduleLoop commit now tasks slots m).scheduled =
        (scheduleLoop (fun _ _ _ _ => true) now tasks slots m).scheduled.take d ∧
      (scheduleLoop commit now tasks slots m).error = true := by
  intro tasks
  induction tasks with
  | nil =>
    intro slots m d hbef hfail hd
    rw [scheduleLoop_nil] at hd
    simp at hd
  | cons task rest ih =>
    intro slots m d hbef hfail hd
    cases hdp : decide_placement slots task now with
    | none =>
      rw [scheduleLoop_cons_none (fun _ _ _ _ => true) now task rest slots m hdp] at hd
      rw [scheduleLoop_cons_none commit now task rest slots m hdp,
        scheduleLoop_cons_none (fun _ _ _ _ => true) now task rest slots m hdp]
      exact ih slots m d hbef hfail hd
    | some v =>
      obtain ⟨i, st, en⟩ := v
      have hpure := scheduleLoop_cons_some_true (fun _ _ _ _ => true) now task rest
        slots m i st en hdp rfl
      cases d with
      | zero =>
        have hcf : commit m task st en = false := by
          have := hfail task st en
          simpa using this
        rw [scheduleLoop_cons_some_false commit now task rest slots m i st en hdp hcf]
        exact ⟨by simp, rfl⟩
      | succ dd =>
        have hct : commit m task st en = true := by
          have := hbef 0 (Nat.succ_pos dd) task st en
          simpa using this
        rw [scheduleLoop_cons_some_true commit now task rest slots m i st en hdp hct]
        rw [hpure] at hd ⊢
        have hd' : dd < (scheduleLoop (fun _ _ _ _ => true) now rest
            (update_slots slots i st en) (m + 1)).scheduled.length := by
          simp at hd
          omega
        obtain ⟨ih1, ih2⟩ := ih (update_slots slots i st en) (m + 1) dd
          (fun j hj t s e => by
            have h := hbef (j + 1) (by omega) t s e
            have heq : m + (j + 1) = m + 1 + j := by omega
            rw [heq] at h
            exact h)
          (fun t s e => by
            have h := hfail t s e
            have heq : m + (dd + 1) = m + 1 + dd := by omega
            rw [heq] at h
            exact h)
          hd'
        refine ⟨?_, ih2⟩
        simp only [List.take_succ_cons]
        rw [ih1]

/-- C6: if the external commit callback fails on the `(k+1)`-st
successfully placed task (all earlier commits succeeding), the Placer
stops processing the remaining tasks, the failure is propagated (the error
flag that sets `error_message` is raised), and the result contains exactly
the `k` placements committed before the failure — none are retracted. -/
theorem commit_failure_aborts (commit : Nat → TaskItem → Int → Int → Bool)
    (now : Int) (tasks : List TaskItem) (slots : List (Int × Int)) (k : Nat)
    (hbefore : ∀ j : Nat, j < k → ∀ t s e, commit j t s e = true)
    (hfail : ∀ t s e, commit k t s e = false)
    (hk : k < (scheduleLoop (fun _ _ _ _ => true) now tasks slots 0).scheduled.length) :
    (scheduleLoop commit now tasks slots 0).scheduled =
      (scheduleLoop (fun _ _ _ _ => true) now tasks slots 0).scheduled.take k ∧
    (scheduleLoop commit now tasks slots 0).error = true := by
  refine scheduleLoop_commit_prefix commit now tasks slots 0 k ?_ ?_ hk
  · intro j hj t s e
    have := hbefore j hj t s e
    simpa using this
  · intro t s e
    have := hfail t s e
    simpa using this

/-- C7 amended: the Placer's output events correspond, in input order, to a
subsequence of the input tasks — exactly one record per committed
placement; unplaced tasks (and tasks after a commit failure) contribute no
record. -/
theorem placer_output_sublist (commit : Nat → TaskItem → Int → Int → Bool)
    (now : Int) :
    ∀ (tasks : List TaskItem) (slots : List (Int × Int)) (k : Nat),
      List.Sublist
        ((scheduleLoop commit now tasks slots k).scheduled.map fun e => e.summary)
        (tasks.map fun t => t.title) := by
  intro tasks
  induction tasks with
  | nil =>
    intro slots k
    rw [scheduleLoop_nil]
    simp
  | cons task rest ih =>
    intro slots k
    cases hdp : decide_placement slots task now with
    | none =>
      rw [scheduleLoop_cons_none commit now task rest slots k hdp, List.map_cons]
      exact List.Sublist.cons _ (ih slots k)
    | some v =>
      obtain ⟨i, st, en⟩ := v
      by_cases hc : commit k task st en = true
      · rw [scheduleLoop_cons_some_true commit now task rest slots k i st en hdp hc]
        simp only [List.map_cons]
        exact List.Sublist.cons₂ _ (ih (update_slots slots i st en) (k + 1))
      · rw [scheduleLoop_cons_some_false commit now task rest slots k i st en hdp
          (Bool.eq_false_iff.mpr hc)]
        simp

/-- C7 counterexample: with one input task and no free capacity the task is
unplaced and the Placer's output contains no record for it, so the output
does not have one record per input task. -/
theorem placer_output_not_one_per_task :
    (scheduleLoop (fun _ _ _ _ => true) 0 [⟨"A", 30, none⟩] [] 0).scheduled.length ≠
      [(⟨"A", 30, none⟩ : TaskItem)].length := by
  decide

/-- Interval containment: `p` lies inside `q`. -/
def within (p q : Int × Int) : Prop := q.1 ≤ p.1 ∧ p.2 ≤ q.2

/-- Two half-open intervals do not overlap. -/
def intervalsDisjoint (p q : Int × Int) : Prop := p.2 ≤ q.1 ∨ q.2 ≤ p.1

/-- Run invariant of the task loop: starting from a sorted, disjoint,
positive-length slot list and positive task durations, the final slot list
keeps the invariant, every committed placement lies inside one of the
starting slots, and the committed placements are pairwise disjoint. -/
theorem scheduleLoop_safe (commit : Nat → TaskItem → Int → Int → Bool) (now : Int) :
    ∀ (tasks : List TaskItem) (slots : List (Int × Int)) (k : Nat),
      SlotsOk slots → (∀ t ∈ tasks, 0 < t.estimated_duration_minutes) →
      SlotsOk (scheduleLoop commit now tasks slots k).slots ∧
      (∀ e ∈ (scheduleLoop commit now tasks slots k).scheduled,
        ∃ s ∈ slots, within (e.start_time, e.end_time) s) ∧
      ((scheduleLoop commit now tasks slots k).scheduled.map
        fun e => (e.start_time, e.end_time)).Pairwise intervalsDisjoint := by
  intro tasks
  induction tasks with
  | nil =>
    intro slots k hok _
    rw [scheduleLoop_nil]
    exact ⟨hok, by simp, by simp⟩
  | cons task rest ih =>
    intro slots k hok hdur
    have hdur' : ∀ t ∈ rest, 0 < t.estimated_duration_minutes :=
      fun t ht => hdur t (by simp [ht])
    have hdtask : 0 < task.estimated_duration_minutes := hdur task (by simp)
    cases hdp : decide_placement slots task now with
    | none =>
      rw [scheduleLoop_cons_none commit now task rest slots k hdp]
      exact ih slots k hok hdur'
    | some v =>
      obtain ⟨i, st, en⟩ := v
      obtain ⟨ss, se, hget, hss, hse, hen⟩ :=
        decide_placement_spec slots task now i st en hdp
      have hsten : st < en := by omega
      have hok2 : SlotsOk (update_slots slots i st en) :=
        (update_slots_invariant slots i ss se st en hok hget hss hse hsten).1
      by_cases hc : commit k task st en = true
      · rw [scheduleLoop_cons_some_true commit now task rest slots k i st en hdp hc]
        obtain ⟨ih1, ih2, ih3⟩ := ih (update_slots slots i st en) (k + 1) hok2 hdur'
        refine ⟨ih1, ?_, ?_⟩
        · intro e he
          rcases List.mem_cons.mp he with rfl | he
          · exact ⟨(ss, se), List.getElem?_mem hget, hss, hse⟩
          · obtain ⟨s', hs', hw⟩ := ih2 e he
            obtain ⟨s0, hs0, ha, hb⟩ :=
              mem_update_slots slots i st en ss se hget hss hse (le_of_lt hsten) s' hs'
            exact ⟨s0, hs0, le_trans ha hw.1, le_trans hw.2 hb⟩
        · simp only [List.map_cons]
          refine List.pairwise_cons.mpr ⟨?_, ih3⟩
          intro q hq
          rw [List.mem_map] at hq
          obtain ⟨e, he, rfl⟩ := hq
          obtain ⟨s', hs', hw⟩ := ih2 e he
          have hd :=
            update_slots_disjoint slots i st en ss se hok hget hss hse s' hs'
          rcases hd with hd | hd
          · right
            have h1 := hw.2
            simp only at h1 ⊢
            omega
          · left
            have h1 := hw.1
            simp only at h1 ⊢
            omega
      · rw [scheduleLoop_cons_some_false commit now task rest slots k i st en hdp
          (Bool.eq_false_iff.mpr hc)]
        exact ⟨hok2, by simp, by simp⟩

/-- C10: starting from a sorted, disjoint, positive-length free-slot list,
the placements committed in one run of the Placer are pairwise disjoint and
each lies inside one of the initial free slots — so no placed task overlaps
another placed task, any busy event, or time outside the clamped working
window. -/
theorem placements_disjoint_and_inside (commit : Nat → TaskItem → Int → Int → Bool)
    (now : Int) (tasks : List TaskItem) (slots : List (Int × Int))
    (hok : SlotsOk slots)
    (hdur : ∀ t ∈ tasks, 0 < t.estimated_duration_minutes) :
    (((scheduleLoop commit now tasks slots 0).scheduled.map
        fun e => (e.start_time, e.end_time)).Pairwise intervalsDisjoint) ∧
    ∀ e ∈ (scheduleLoop commit now tasks slots 0).scheduled,
      ∃ s ∈ slots, within (e.start_time, e.end_time) s := by
  obtain ⟨_, h2, h3⟩ := scheduleLoop_safe commit now tasks slots 0 hok hdur
  exact ⟨h3, h2⟩

/-- C2: for a sorted, disjoint, positive-length free-slot list and a
successful placement `[used_start, used_end)` — positive length (the
task's duration), lying inside the slot at `index` — the updated list is
again sorted, disjoint and positive-length, and its total duration is
exactly the placement's length less than before. -/
theorem update_slots_correct (slots : List (Int × Int)) (index : Nat)
    (slot_start slot_end used_start used_end : Int)
    (hok : SlotsOk slots)
    (hget : slots[index]? = some (slot_start, slot_end))
    (h1 : slot_start ≤ used_start) (h2 : used_end ≤ slot_end)
    (h3 : used_start < used_end) :
    SlotsOk (update_slots slots index used_start used_end) ∧
      totalLen (update_slots slots index used_start used_end) =
        totalLen slots - (used_end - used_start) :=
  update_slots_invariant slots index slot_start slot_end used_start used_end
    hok hget h1 h2 h3

/-- The preferred-time resolution rule as the spec states it: take the
first integer group of the text as the hour and the second, when present,
as the minute (`0` otherwise); add 12 to the hour when the text contains an
afternoon marker (`午後`, or `PM` case-insensitively) and the extracted
hour is below 12; set the hour to 0 when the text contains a morning
marker (`午前` / `AM`) and the extracted hour equals 12; the result is the
timestamp on "today" with that hour and minute.  The preferred time is
absent when the text has no integer group or the hour/minute is not a
valid time-of-day. -/
def preferred_time_resolution (s : String) : Option Int :=
  match digit_groups s.toList with
  | [] => none
  | h :: rest =>
    let m := rest.headD 0
    let afternoon := containsSub "午後".toList s.toList ||
      containsSub "PM".toList (s.toList.map Char.toUpper)
    let morning := containsSub "午前".toList s.toList ||
      containsSub "AM".toList (s.toList.map Char.toUpper)
    let h1 := if afternoon ∧ h < 12 then h + 12 else h
    let h2 := if morning ∧ h = 12 then 0 else h1
    if h2 ≤ 23 ∧ m ≤ 59 then some ((60 * h2 + m : Nat) : Int) else none

/-- C5: `_parse_preferred_time` implements exactly the spec's resolution
rule, for every text and every base date (the base date only fixes
"today"). -/
theorem parse_preferred_time_correct (s : String) (base_date : Int) :
    parse_preferred_time s base_date = preferred_time_resolution s := by
  unfold parse_preferred_time preferred_time_resolution
  cases digit_groups s.toList with
  | nil => rfl
  | cons n rest =>
    generalize (containsSub "午後".toList s.toList ||
      containsSub "PM".toList (s.toList.map Char.toUpper)) = A
    generalize (containsSub "午前".toList s.toList ||
      containsSub "AM".toList (s.toList.map Char.toUpper)) = M
    cases rest with
    | nil =>
      cases A
      · simp
      · by_cases h12 : n < 12
        · simp [h12, show ¬n = 12 by omega]
        · simp [h12]
    | cons m0 mrest =>
      cases A
      · simp
      · by_cases h12 : n < 12
        · simp [h12, show ¬n = 12 by omega]
        · simp [h12]

/-- All events outside the (clamped) window are skipped, so the sweep
produces the result of an empty event list. -/
theorem sweepLoop_all_skipped (ts te : Int) (l : List CalendarEvent)
    (h : ∀ e ∈ l, e.end_time ≤ ts ∨ e.start_time ≥ te) :
    ∀ cur : Int, sweepLoop ts te l cur = sweepLoop ts te [] cur := by
  induction l with
  | nil =>
    intro cur
    rfl
  | cons e rest ih =>
    intro cur
    have hskip : e.end_time ≤ ts ∨ e.start_time ≥ te := h e (by simp)
    have heq : sweepLoop ts te (e :: rest) cur = sweepLoop ts te rest cur := by
      simp only [sweepLoop, if_pos hskip]
    rw [heq]
    exact ih (fun f hf => h f (by simp [hf])) cur

/-- C9 amended: re-running the Calculator with an empty busy-event list and
all other inputs (window and `now`) unchanged reproduces the first output
provided no busy event of the first run overlapped the clamped working
window; in general the re-run returns the whole clamped window as a single
slot, not the first run's list. -/
theorem calculator_rerun_id (events : List CalendarEvent)
    (work_start_hour work_end_hour now : Int)
    (h : ∀ e ∈ events,
      e.end_time ≤ (if now > 60 * work_start_hour then now
        else 60 * work_start_hour) ∨
      e.start_time ≥ 60 * work_end_hour) :
    calculate_free_slots [] work_start_hour work_end_hour now =
      calculate_free_slots events work_start_hour work_end_hour now := by
  have heq0 : ∀ evs : List CalendarEvent,
      calculate_free_slots evs work_start_hour work_end_hour now =
        (if now ≥ 60 * work_end_hour then []
         else sweepLoop
           (if now > 60 * work_start_hour then now else 60 * work_start_hour)
           (60 * work_end_hour) (sortByStart evs)
           (if now > 60 * work_start_hour then now else 60 * work_start_hour)) :=
    fun _ => rfl
  rw [heq0, heq0]
  by_cases hre : now ≥ 60 * work_end_hour
  · rw [if_pos hre, if_pos hre]
  · rw [if_neg hre, if_neg hre]
    have hnil : sortByStart ([] : List CalendarEvent) = [] := rfl
    rw [hnil]
    exact (sweepLoop_all_skipped _ _ (sortByStart events)
      (fun e he => h e ((mem_sortByStart e events).mp he)) _).symm

/-- C9 counterexample: with a busy event inside the window, re-running the
Calculator on an empty busy-event list with the window and `now` unchanged
returns the whole clamped window — not the first run's two-slot output. -/
theorem calculator_rerun_differs :
    calculate_free_slots [] 9 21 540 ≠
      calculate_free_slots [CalendarEvent.mk "meeting" 720 780] 9 21 540 := by
  decide

/-- C8 amended: `schedule_tasks` works on a copy of the free-slot list
(`available_slots = list(state.free_slots)`) and its returned dict has no
`free_slots` key, so after the run the caller's `free_slots` is exactly
its value before the run; the residual capacity is discarded. -/
theorem schedule_tasks_preserves_free_slots
    (commit : Nat → TaskItem → Int → Int → Bool) (now : Int)
    (state : SchedulerState) :
    (apply_update state (schedule_tasks commit now state)).free_slots =
      state.free_slots := rfl

/-- C8 counterexample: a run that places a task leaves a residual slot list
different from the input, yet the caller's `free_slots` after the state
update is the unchanged original — the passed-in list does not reflect the
residual free capacity. -/
theorem schedule_tasks_free_slots_stale :
    (scheduleLoop (fun _ _ _ _ => true) 480
        [TaskItem.mk "A" 30 none] [(540, 600)] 0).slots ≠ [(540, 600)] ∧
    (apply_update (SchedulerState.mk [(540, 600)] [TaskItem.mk "A" 30 none] [] none)
        (schedule_tasks (fun _ _ _ _ => true) 480
          (SchedulerState.mk [(540, 600)] [TaskItem.mk "A" 30 none] [] none))).free_slots =
      [(540, 600)] := by
  constructor
  · decide
  · rfl

/-- Witness for C1 at a concrete input: one busy event `[12:00, 13:00)`
inside the window `[9:00, 21:00)`, with `now = 9:00`. -/
theorem calculate_free_slots_correct_witness :
    (∀ e ∈ [CalendarEvent.mk "meeting" 720 780], e.start_time < e.end_time) ∧
    (SlotsOk (calculate_free_slots [CalendarEvent.mk "meeting" 720 780] 9 21 540) ∧
     (∀ t : Int,
        inSlots (calculate_free_slots [CalendarEvent.mk "meeting" 720 780] 9 21 540) t ↔
          ((if (540 : Int) > 60 * 9 then (540 : Int) else 60 * 9) ≤ t ∧
           t < 60 * 21 ∧
           ∀ e ∈ [CalendarEvent.mk "meeting" 720 780],
             ((if (540 : Int) > 60 * 9 then (540 : Int) else 60 * 9) < e.end_time ∧
               e.start_time < 60 * 21) →
             ¬(e.start_time ≤ t ∧ t < e.end_time))) ∧
     ((540 : Int) ≥ 60 * 21 →
       calculate_free_slots [CalendarEvent.mk "meeting" 720 780] 9 21 540 = [])) :=
  ⟨by decide,
   calculate_free_slots_correct [CalendarEvent.mk "meeting" 720 780] 9 21 540 (by decide)⟩

/-- Witness for C2 at a concrete input: placing `[10:00, 10:30)` inside the
single slot `[9:00, 21:00)`. -/
theorem update_slots_correct_witness :
    (SlotsOk [((540 : Int), (1260 : Int))] ∧
     [((540 : Int), (1260 : Int))][0]? = some (540, 1260) ∧
     (540 : Int) ≤ 600 ∧ (630 : Int) ≤ 1260 ∧ (600 : Int) < 630) ∧
    (SlotsOk (update_slots [(540, 1260)] 0 600 630) ∧
      totalLen (update_slots [(540, 1260)] 0 600 630) =
        totalLen [(540, 1260)] - (630 - 600)) := by
  have hok : SlotsOk [((540 : Int), (1260 : Int))] := by
    refine ⟨?_, ?_⟩ <;> simp [slotsSortedDisjoint, slotsPos]
  exact ⟨⟨hok, by decide, by decide, by decide, by decide⟩,
    update_slots_correct [(540, 1260)] 0 540 1260 600 630 hok (by decide) (by decide)
      (by decide) (by decide)⟩

/-- Witness for C3 at a concrete input: the task `"A"` (30 min, preferred
"10時") against the single slot `[9:00, 21:00)`; the preferred start 10:00
is honored. -/
theorem preferred_start_honored_witness :
    (resolve_preferred (TaskItem.mk "A" 30 (some "10時")) 480 = some 600 ∧
     ∃ p ∈ [((540 : Int), (1260 : Int))], p.1 ≤ 600 ∧ (600 : Int) < p.2 ∧
       p.2 - 600 ≥ (TaskItem.mk "A" 30 (some "10時")).estimated_duration_minutes) ∧
    ∃ i : Nat, decide_placement [((540 : Int), (1260 : Int))]
        (TaskItem.mk "A" 30 (some "10時")) 480 =
      some (i, 600, 600 + (TaskItem.mk "A" 30 (some "10時")).estimated_duration_minutes) :=
  ⟨⟨by decide, by decide⟩,
   preferred_start_honored [(540, 1260)] (TaskItem.mk "A" 30 (some "10時")) 480 600
     (by decide) (by decide)⟩

/-- Witness for C4 at a concrete input: the task `"B"` (60 min, no
preferred time) against the single slot `[9:00, 21:00)`. -/
theorem fallback_placement_witness :
    (resolve_preferred (TaskItem.mk "B" 60 none) 480 = none ∨
      ∃ pref, resolve_preferred (TaskItem.mk "B" 60 none) 480 = some pref ∧
        ∀ p ∈ [((540 : Int), (1260 : Int))], ¬(p.1 ≤ pref ∧ pref < p.2 ∧
          p.2 - pref ≥ (TaskItem.mk "B" 60 none).estimated_duration_minutes)) ∧
    ((∀ (i : Nat) (p : Int × Int), [((540 : Int), (1260 : Int))][i]? = some p →
        p.2 - p.1 ≥ (TaskItem.mk "B" 60 none).estimated_duration_minutes →
        (∀ j : Nat, j < i → ∀ q : Int × Int,
          [((540 : Int), (1260 : Int))][j]? = some q →
          ¬(q.2 - q.1 ≥ (TaskItem.mk "B" 60 none).estimated_duration_minutes)) →
        decide_placement [((540 : Int), (1260 : Int))] (TaskItem.mk "B" 60 none) 480 =
          some (i, p.1, p.1 + (TaskItem.mk "B" 60 none).estimated_duration_minutes)) ∧
      ((∀ p ∈ [((540 : Int), (1260 : Int))],
          ¬(p.2 - p.1 ≥ (TaskItem.mk "B" 60 none).estimated_duration_minutes)) →
        decide_placement [((540 : Int), (1260 : Int))]
            (TaskItem.mk "B" 60 none) 480 = none ∧
        scheduleLoop (fun _ _ _ _ => true) 480
            (TaskItem.mk "B" 60 none :: []) [((540 : Int), (1260 : Int))] 0 =
          scheduleLoop (fun _ _ _ _ => true) 480 [] [((540 : Int), (1260 : Int))] 0)) :=
  ⟨Or.inl (by decide),
   fallback_placement [(540, 1260)] (TaskItem.mk "B" 60 none) 480
     (fun _ _ _ _ => true) [] 0 (Or.inl (by decide))⟩

/-- Witness for C6 at a concrete input: two 30-minute tasks both fit the
slot `[0:00, 2:00)`; the commit callback succeeds on the first call and
fails on the second, so only the first placement is kept and the error
flag is set. -/
theorem commit_failure_aborts_witness :
    ((∀ j : Nat, j < 1 → ∀ (t : TaskItem) (s e : Int),
        (fun (k : Nat) (_ : TaskItem) (_ _ : Int) => decide (k < 1)) j t s e = true) ∧
     (∀ (t : TaskItem) (s e : Int),
        (fun (k : Nat) (_ : TaskItem) (_ _ : Int) => decide (k < 1)) 1 t s e = false) ∧
     1 < (scheduleLoop (fun _ _ _ _ => true) 480
        [TaskItem.mk "A" 30 none, TaskItem.mk "B" 30 none]
        [((0 : Int), (120 : Int))] 0).scheduled.length) ∧
    ((scheduleLoop (fun (k : Nat) (_ : TaskItem) (_ _ : Int) => decide (k < 1)) 480
        [TaskItem.mk "A" 30 none, TaskItem.mk "B" 30 none]
        [((0 : Int), (120 : Int))] 0).scheduled =
      (scheduleLoop (fun _ _ _ _ => true) 480
        [TaskItem.mk "A" 30 none, TaskItem.mk "B" 30 none]
        [((0 : Int), (120 : Int))] 0).scheduled.take 1 ∧
     (scheduleLoop (fun (k : Nat) (_ : TaskItem) (_ _ : Int) => decide (k < 1)) 480
        [TaskItem.mk "A" 30 none, TaskItem.mk "B" 30 none]
        [((0 : Int), (120 : Int))] 0).error = true) := by
  have hb : ∀ j : Nat, j < 1 → ∀ (t : TaskItem) (s e : Int),
      (fun (k : Nat) (_ : TaskItem) (_ _ : Int) => decide (k < 1)) j t s e = true := by
    intro j hj t s e
    have hj0 : j = 0 := by omega
    subst hj0
    rfl
  have hf : ∀ (t : TaskItem) (s e : Int),
      (fun (k : Nat) (_ : TaskItem) (_ _ : Int) => decide (k < 1)) 1 t s e = false := by
    intro t s e
    rfl
  exact ⟨⟨hb, hf, by decide⟩,
    commit_failure_aborts (fun (k : Nat) (_ : TaskItem) (_ _ : Int) => decide (k < 1)) 480
      [TaskItem.mk "A" 30 none, TaskItem.mk "B" 30 none] [(0, 120)] 1 hb hf (by decide)⟩

/-- Witness for C9 (amended) at a concrete input: one busy event entirely
before the clamped window, so the re-run with no events reproduces the
output. -/
theorem calculator_rerun_id_witness :
    (∀ e ∈ [CalendarEvent.mk "early" 0 100],
      e.end_time ≤ (if (540 : Int) > 60 * 9 then (540 : Int) else 60 * 9) ∨
      e.start_time ≥ 60 * 21) ∧
    calculate_free_slots [] 9 21 540 =
      calculate_free_slots [CalendarEvent.mk "early" 0 100] 9 21 540 :=
  ⟨by decide, calculator_rerun_id [CalendarEvent.mk "early" 0 100] 9 21 540 (by decide)⟩

/-- Witness for C10 at a concrete input: two tasks placed inside the slot
`[9:00, 21:00)` produce disjoint placements contained in it. -/
theorem placements_disjoint_and_inside_witness :
    (SlotsOk [((540 : Int), (1260 : Int))] ∧
     ∀ t ∈ [TaskItem.mk "A" 30 (some "10時"), TaskItem.mk "B" 60 none],
       0 < t.estimated_duration_minutes) ∧
    ((((scheduleLoop (fun _ _ _ _ => true) 480
        [TaskItem.mk "A" 30 (some "10時"), TaskItem.mk "B" 60 none]
        [((540 : Int), (1260 : Int))] 0).scheduled.map
          fun e => (e.start_time, e.end_time)).Pairwise intervalsDisjoint) ∧
     ∀ e ∈ (scheduleLoop (fun _ _ _ _ => true) 480
        [TaskItem.mk "A" 30 (some "10時"), TaskItem.mk "B" 60 none]
        [((540 : Int), (1260 : Int))] 0).scheduled,
       ∃ s ∈ [((540 : Int), (1260 : Int))], within (e.start_time, e.end_time) s) := by
  have hok : SlotsOk [((540 : Int), (1260 : Int))] := by
    refine ⟨?_, ?_⟩ <;> simp [slotsSortedDisjoint, slotsPos]
  exact ⟨⟨hok, by decide⟩,
    placements_disjoint_and_inside (fun _ _ _ _ => true) 480
      [TaskItem.mk "A" 30 (some "10時"), TaskItem.mk "B" 60 none] [(540, 1260)]
      hok (by decide)⟩
